import Mathlib

/-!
Verification of the dn frontend's typed-argument schema engine and listing
logic, as implemented in `dn-frontend/src` (`pages/CreatePage.tsx`,
`pages/ListPage.tsx`, `pages/InfoPage.tsx`, and the api module).

Modelling conventions:
* JavaScript strings are modelled as Lean `String` / `List Char`; the ASCII
  behaviour of `toLowerCase`, `\w` and `\s` is modelled (the regexes in the
  source are used without the unicode flag, and all inputs of interest are
  ASCII).
* JavaScript numbers obtained from `Number(string)` are modelled exactly:
  a parsed decimal literal `m / 10^k` is kept as the pair `(m, k)` instead of
  being rounded to an IEEE-754 double, and overflow to infinity is not
  modelled; the literal `Infinity` is.  `Number.isInteger` on a finite value
  becomes divisibility of `m` by `10^k`.
* `localeCompare` on the fixed-format ISO datetime strings is modelled as
  code-unit lexicographic comparison (`List Char` order), which is what it
  computes on such strings.
* `Array.prototype.sort` (stable since ES2019) is modelled by stable
  insertion sort.
-/

namespace Dn

/-! ### JavaScript whitespace and string trimming (`String.prototype.trim`) -/

/-- The JavaScript whitespace class `\s` restricted to the characters
representable here (ASCII whitespace plus no-break space). -/
def isSpaceJS (c : Char) : Bool :=
  c = ' ' || c = '\t' || c = '\n' || c = '\r' || c = '\x0b' || c = '\x0c' || c = '\xa0'

/-- Remove leading and trailing JS whitespace from a character list;
models `String.prototype.trim`. -/
def trimWS (cs : List Char) : List Char :=
  ((cs.dropWhile isSpaceJS).reverse.dropWhile isSpaceJS).reverse

/-! ### The JavaScript `Number(string)` conversion

`JsNum` is the result of `Number(v)` for a string `v`: `NaN`, a signed
infinity (from the literal `Infinity`), or a finite value.  A finite value is
kept exactly as `m / 10^k` (numerator `m : Int`, denominator exponent
`k : Nat`), not rounded to a double. -/

inductive JsNum where
  | nan : JsNum
  | inf (neg : Bool) : JsNum
  | num (m : Int) (k : Nat) : JsNum
deriving DecidableEq, Repr

/-- Split off the longest prefix of decimal digits. -/
def takeDigits : List Char → List Char × List Char
  | [] => ([], [])
  | c :: cs =>
    if c.isDigit then
      let (d, r) := takeDigits cs
      (c :: d, r)
    else ([], c :: cs)

/-- Numeric value of a list of decimal digits (most significant first). -/
def digitsToNat (ds : List Char) : Nat :=
  ds.foldl (fun a c => a * 10 + (c.toNat - '0'.toNat)) 0

/-- Numeric value of digits in an arbitrary radix (for `0x`, `0o`, `0b`
literals); hex letters in either case. -/
def radixDigitVal (c : Char) : Nat :=
  if c.isDigit then c.toNat - '0'.toNat
  else if 'a' ≤ c ∧ c ≤ 'f' then c.toNat - 'a'.toNat + 10
  else if 'A' ≤ c ∧ c ≤ 'F' then c.toNat - 'A'.toNat + 10
  else 0

/-- Is `c` a digit of the given radix (2, 8 or 16)? -/
def isRadixDigit (radix : Nat) (c : Char) : Bool :=
  (c.isDigit || ('a' ≤ c ∧ c ≤ 'f') || ('A' ≤ c ∧ c ≤ 'F')) && radixDigitVal c < radix

/-- Parse an exponent part `e`/`E` with optional sign and mandatory digits.
Returns the exponent and the rest; when no `e`/`E` is present the exponent is
`0`; a malformed exponent fails (yields `none`, i.e. `NaN` overall). -/
def parseExpPart : List Char → Option (Int × List Char)
  | c :: cs =>
    if c = 'e' ∨ c = 'E' then
      let (neg, cs1) : Bool × List Char :=
        match cs with
        | '-' :: r => (true, r)
        | '+' :: r => (false, r)
        | r => (false, r)
      let (ds, rest) := takeDigits cs1
      if ds = [] then none
      else some ((if neg then -(digitsToNat ds : Int) else (digitsToNat ds : Int)), rest)
    else some (0, c :: cs)
  | [] => some (0, [])

/-- Combine integer digits, fraction digits and a decimal exponent into a
`JsNum` value `(int.frac) * 10^e`, represented exactly. -/
def mkDecimal (neg : Bool) (intDs fracDs : List Char) (e : Int) : JsNum :=
  let m : Int := (digitsToNat intDs * 10 ^ fracDs.length + digitsToNat fracDs : Nat)
  let m : Int := if neg then -m else m
  if e ≥ 0 then .num (m * 10 ^ e.toNat) fracDs.length
  else .num m (fracDs.length + (-e).toNat)

/-- Parse `StrUnsignedDecimalLiteral`: `Infinity`, `Digits [. Digits] [Exp]`
or `. Digits [Exp]`.  The whole remaining input must be consumed. -/
def parseUnsignedBody (neg : Bool) (cs : List Char) : JsNum :=
  if cs = ['I', 'n', 'f', 'i', 'n', 'i', 't', 'y'] then .inf neg
  else
    match cs with
    | '.' :: cs1 =>
      let (fd, r1) := takeDigits cs1
      if fd = [] then .nan
      else
        match parseExpPart r1 with
        | some (e, []) => mkDecimal neg [] fd e
        | _ => .nan
    | _ =>
      let (id, r1) := takeDigits cs
      if id = [] then .nan
      else
        match r1 with
        | '.' :: cs2 =>
          let (fd, r2) := takeDigits cs2
          match parseExpPart r2 with
          | some (e, []) => mkDecimal neg id fd e
          | _ => .nan
        | _ =>
          match parseExpPart r1 with
          | some (e, []) => mkDecimal neg id [] e
          | _ => .nan

/-- Parse a non-decimal integer literal body (digits after `0x`/`0o`/`0b`). -/
def parseRadixBody (radix : Nat) (cs : List Char) : JsNum :=
  if cs ≠ [] ∧ cs.all (isRadixDigit radix) then
    .num (cs.foldl (fun a c => a * radix + radixDigitVal c) 0 : Nat) 0
  else .nan

/-- The JavaScript `Number(string)` conversion (`ToNumber` on strings):
trim whitespace; empty → `0`; a non-decimal `0x`/`0o`/`0b` literal (no sign);
otherwise an optionally signed decimal literal or `Infinity`; anything else is
`NaN`.  Finite results are kept exact (no IEEE-754 rounding or overflow). -/
def jsNumber (s : String) : JsNum :=
  match trimWS s.toList with
  | [] => .num 0 0
  | '0' :: x :: rest =>
    if x = 'x' ∨ x = 'X' then parseRadixBody 16 rest
    else if x = 'o' ∨ x = 'O' then parseRadixBody 8 rest
    else if x = 'b' ∨ x = 'B' then parseRadixBody 2 rest
    else parseUnsignedBody false ('0' :: x :: rest)
  | '-' :: rest => parseUnsignedBody true rest
  | '+' :: rest => parseUnsignedBody false rest
  | cs => parseUnsignedBody false cs

/-- `Number.isNaN` on a converted value. -/
def isNaNJs : JsNum → Bool
  | .nan => true
  | _ => false

/-- `Number.isInteger` on a converted value: finite with zero fractional
part, i.e. `10^k` divides the exact numerator `m`. -/
def isIntegerJs : JsNum → Bool
  | .num m k => m % ((10 : Int) ^ k) = 0
  | _ => false

/-! ### Argument schema and client-side validation (`CreatePage.tsx`)

Raw form values are modelled as strings (the text-like inputs all yield
strings; for BOOLEAN positions `clientValidate` never inspects the value, and
`Boolean(v)` becomes string truthiness `v ≠ ""`). -/

/-- The closed enumeration of argument kinds (`CreateInfo.arguments[].type`
in the api module). -/
inductive ArgKind where
  | DATETIME
  | TEXT
  | TEXTAREA
  | INTEGER
  | FLOAT
  | BOOLEAN
deriving DecidableEq, Repr

/-- One argument specification; the source's field `type` is called `kind`
here (`type` is a Lean keyword). -/
structure ArgSpec where
  kind : ArgKind
  label : String
  desc : String
deriving DecidableEq, Repr

/-- `clientValidate` from `CreatePage.tsx`: walk the schema positions in
order over `values[i]`, returning the first error message, `none` when all
positions validate.  The second list is the `values` array; when it is
shorter than the schema, `values[i]` is `undefined`, for which
`Number(undefined)` is `NaN` and `String(undefined || "")` is `""`, so every
non-BOOLEAN kind errors — the last match arm models that. -/
def clientValidate : List ArgSpec → List String → Option String
  | [], _ => none
  | spec :: ss, v :: vs =>
    match spec.kind with
    | .BOOLEAN => clientValidate ss vs
    | .INTEGER =>
      if v == "" || isNaNJs (jsNumber v) then some (spec.label ++ " must be an integer.")
      else if !isIntegerJs (jsNumber v) then some (spec.label ++ " must be an integer.")
      else clientValidate ss vs
    | .FLOAT =>
      if v == "" || isNaNJs (jsNumber v) then some (spec.label ++ " must be a number.")
      else clientValidate ss vs
    | _ =>
      if (trimWS v.toList).isEmpty then some (spec.label ++ " is required.")
      else clientValidate ss vs
  | spec :: ss, [] =>
    match spec.kind with
    | .BOOLEAN => clientValidate ss []
    | .INTEGER => some (spec.label ++ " must be an integer.")
    | .FLOAT => some (spec.label ++ " must be a number.")
    | _ => some (spec.label ++ " is required.")

/-- Whether one position validates, per kind — the per-position condition
checked by `clientValidate`. -/
def validArg (k : ArgKind) (v : String) : Bool :=
  match k with
  | .BOOLEAN => true
  | .INTEGER => !(v == "" || isNaNJs (jsNumber v)) && isIntegerJs (jsNumber v)
  | .FLOAT => !(v == "" || isNaNJs (jsNumber v))
  | _ => !(trimWS v.toList).isEmpty

/-- The error message `clientValidate` produces for a failing position
(BOOLEAN never fails). -/
def errFor (spec : ArgSpec) : String :=
  match spec.kind with
  | .INTEGER => spec.label ++ " must be an integer."
  | .FLOAT => spec.label ++ " must be a number."
  | _ => spec.label ++ " is required."

/-- The canonical wire value of one argument (the `args` array built in
`onCreate`). -/
inductive TypedVal where
  | dt (s : String)
  | str (s : String)
  | numv (n : JsNum)
  | flag (b : Bool)
deriving DecidableEq, Repr

/-- Per-position coercion from `onCreate`'s `switch (spec.type)`.  The
timezone-dependent `utcIsoFromDatetimeLocal` is passed in as `tz` (its value
depends on the evaluating system's current timezone offset); `Boolean(v)`
for a string is `v ≠ ""`; TEXT/TEXTAREA/default is `String(v)`, the identity
on strings. -/
def coerceArg (tz : String → String) (k : ArgKind) (v : String) : TypedVal :=
  match k with
  | .DATETIME => .dt (tz v)
  | .INTEGER => .numv (jsNumber v)
  | .FLOAT => .numv (jsNumber v)
  | .BOOLEAN => .flag (v != "")
  | _ => .str v

/-- Outcome of `onCreate` up to the network boundary: either a validation
error (shown locally, no request issued) or the `POST /api/create` payload. -/
inductive CreateOutcome where
  | validationError (msg : String)
  | request (typeId : String) (args : List TypedVal)
deriving Repr

/-- `onCreate` from `CreatePage.tsx`, modelled to the point where the
network request would be issued: run `clientValidate`; on error, surface it
and stop; otherwise build the typed argument array
(`selected.arguments.map((spec, i) => ...)`, a zip for equal lengths) and
issue the request. -/
def onCreate (tz : String → String) (typeId : String)
    (specs : List ArgSpec) (vals : List String) : CreateOutcome :=
  match clientValidate specs vals with
  | some e => .validationError e
  | none => .request typeId ((specs.zip vals).map fun p => coerceArg tz p.1.kind p.2)

/-! ### Temporal classification (`isPast` in the api module) -/

/-- The two display statuses (`passed` / `upcoming` badge in
`ListPage.tsx`). -/
inductive Status where
  | passed
  | upcoming
deriving DecidableEq, Repr

/-- `isPast(utcIso)` compares `new Date(utcIso).getTime() <= Date.now()`;
`t` is the instant's epoch milliseconds and `now` is `Date.now()`. -/
def isPast (t now : Int) : Bool :=
  decide (t ≤ now)

/-- The status shown for a row: `passed` when `isPast`, else `upcoming`. -/
def classifyStatus (t now : Int) : Status :=
  if isPast t now then .passed else .upcoming

/-! ### Listing engine (`ListPage.tsx` `sorted` memo, `InfoPage.tsx` `rows`
memo) -/

/-- One row of `GET /api/list` (`ListRow` in the api module). -/
structure ListRow where
  name : String
  uuid : String
  content : String
  utc_datetime : String
deriving DecidableEq, Repr

/-- The ordering used by `r.sort((a, b) => -1 * a.utc_datetime.localeCompare(
b.utc_datetime))`: descending by `utc_datetime`, with `localeCompare`
modelled as code-unit lexicographic comparison. -/
def descLe (a b : ListRow) : Prop :=
  b.utc_datetime.toList ≤ a.utc_datetime.toList

instance : DecidableRel descLe := fun a b =>
  inferInstanceAs (Decidable (b.utc_datetime.toList ≤ a.utc_datetime.toList))

instance : IsTotal ListRow descLe :=
  ⟨fun a b => le_total b.utc_datetime.toList a.utc_datetime.toList⟩

instance : IsTrans ListRow descLe :=
  ⟨fun _ _ _ h1 h2 => le_trans h2 h1⟩

/-- The descending sort of the list page (stable, as `Array.prototype.sort`
is). -/
def sortDesc (rows : List ListRow) : List ListRow :=
  List.insertionSort descLe rows

/-- The dedup filter
`r.filter((v, ind) => !r.slice(0, ind).some((x) => x.uuid === v.uuid))`:
`pre` is the already-traversed prefix `r.slice(0, ind)`; keep `v` iff no
element of the prefix shares its uuid. -/
def dedupKeepFirstAux (pre : List ListRow) : List ListRow → List ListRow
  | [] => []
  | v :: rest =>
    if pre.any (fun x => x.uuid == v.uuid) then dedupKeepFirstAux (pre ++ [v]) rest
    else v :: dedupKeepFirstAux (pre ++ [v]) rest

/-- Keep, for each uuid, only the row at its first index. -/
def dedupKeepFirst (rows : List ListRow) : List ListRow :=
  dedupKeepFirstAux [] rows

/-- The `l` value of the `sorted` memo in `ListPage.tsx`: sort descending by
`utc_datetime`, then deduplicate by uuid keeping first occurrences of the
sorted order. -/
def sortedDedup (rows : List ListRow) : List ListRow :=
  dedupKeepFirst (sortDesc rows)

/-- JS `\w` (ASCII word character: letter, digit or underscore). -/
def isWordChar (c : Char) : Bool :=
  c.isAlpha || c.isDigit || c = '_'

/-- Split a character list into its maximal runs of non-whitespace
characters; models `.split(/\s+/).filter(Boolean)` (the split may produce a
leading/trailing empty string which `filter(Boolean)` removes, hence exactly
the maximal runs). `acc` holds the current run, reversed. -/
def splitWSAux (acc : List Char) : List Char → List (List Char)
  | [] => if acc.isEmpty then [] else [acc.reverse]
  | c :: cs =>
    if isSpaceJS c then
      if acc.isEmpty then splitWSAux [] cs
      else acc.reverse :: splitWSAux [] cs
    else splitWSAux (c :: acc) cs

/-- The `tokenize` helper of the `sorted` memo:
`s.toLowerCase().replace(/[^\w\s]/g, " ").split(/\s+/).filter(Boolean)`. -/
def tokenize (s : String) : List (List Char) :=
  splitWSAux []
    ((s.toList.map Char.toLower).map fun c =>
      if isWordChar c || isSpaceJS c then c else ' ')

/-- `needle.isPrefixOf hay` on characters, written out. -/
def isPrefixCh : List Char → List Char → Bool
  | [], _ => true
  | _ :: _, [] => false
  | a :: as, b :: bs => a == b && isPrefixCh as bs

/-- `hay.includes(needle)` — contiguous substring test. -/
def hasSub (needle : List Char) : List Char → Bool
  | [] => needle.isEmpty
  | c :: cs => isPrefixCh needle (c :: cs) || hasSub needle cs

/-- The filter predicate of the `sorted` memo: an empty (falsy) content never
matches; otherwise every token of the query must be a substring of some token
of the content. -/
def rowMatches (contentParam : String) (r : ListRow) : Bool :=
  if r.content == "" then false
  else
    (tokenize contentParam).all fun p =>
      (tokenize r.content).any fun c => hasSub p c

/-- The full `sorted` memo of `ListPage.tsx`: sort descending, dedup by uuid,
then apply the content filter when `contentParam.trim() !== ""`. -/
def listDisplay (rows : List ListRow) (contentParam : String) : List ListRow :=
  let l := sortedDedup rows
  if !(trimWS contentParam.toList).isEmpty then l.filter (rowMatches contentParam)
  else l

/-- The ascending ordering used by the `rows` memo of `InfoPage.tsx`
(`r.sort((a, b) => a.utc_datetime.localeCompare(b.utc_datetime))`). -/
def ascLe (a b : ListRow) : Prop :=
  a.utc_datetime.toList ≤ b.utc_datetime.toList

instance : DecidableRel ascLe := fun a b =>
  inferInstanceAs (Decidable (a.utc_datetime.toList ≤ b.utc_datetime.toList))

instance : IsTotal ListRow ascLe :=
  ⟨fun a b => le_total a.utc_datetime.toList b.utc_datetime.toList⟩

instance : IsTrans ListRow ascLe :=
  ⟨fun _ _ _ h1 h2 => le_trans h1 h2⟩

/-- The `rows` memo of `InfoPage.tsx`: the occurrence rows sorted ascending
by `utc_datetime`. -/
def infoRows (rows : List ListRow) : List ListRow :=
  List.insertionSort ascLe rows

/-- Example occurrence row: uuid `A` at the earliest instant. -/
def exA1 : ListRow := ⟨"n1", "A", "c1", "2024-01-01T00:00:00Z"⟩

/-- Example occurrence row: uuid `B` at a middle instant. -/
def exB2 : ListRow := ⟨"n2", "B", "c2", "2024-06-01T00:00:00Z"⟩

/-- Example occurrence row: uuid `A` again, at the latest instant. -/
def exA3 : ListRow := ⟨"n3", "A", "c3", "2025-01-01T00:00:00Z"⟩

/-- Example occurrence row whose content exercises the token filter. -/
def exRun : ListRow := ⟨"n4", "R", "I will run faster", "2024-02-01T00:00:00Z"⟩

/-! ### Helper lemmas -/

theorem sortDesc_sorted (rows : List ListRow) : List.Sorted descLe (sortDesc rows) :=
  List.sorted_insertionSort descLe rows

theorem sortDesc_perm (rows : List ListRow) : (sortDesc rows).Perm rows :=
  List.perm_insertionSort descLe rows

theorem mem_of_mem_dedupAux : ∀ (s pre : List ListRow) (x : ListRow),
    x ∈ dedupKeepFirstAux pre s → x ∈ s ∧ ∀ z ∈ pre, z.uuid ≠ x.uuid := by
  intro s
  induction s with
  | nil => intro pre x hx; simp [dedupKeepFirstAux] at hx
  | cons v rest ih =>
    intro pre x hx
    by_cases h : (pre.any fun z => z.uuid == v.uuid) = true
    · simp only [dedupKeepFirstAux, if_pos h] at hx
      obtain ⟨hmem, hpre⟩ := ih (pre ++ [v]) x hx
      exact ⟨List.mem_cons_of_mem _ hmem, fun z hz => hpre z (List.mem_append_left _ hz)⟩
    · simp only [dedupKeepFirstAux, if_neg h] at hx
      rcases List.mem_cons.mp hx with rfl | hx'
      · refine ⟨List.mem_cons_self _ _, fun z hz huuid => ?_⟩
        exact h (List.any_eq_true.mpr ⟨z, hz, by simp [huuid]⟩)
      · obtain ⟨hmem, hpre⟩ := ih (pre ++ [v]) x hx'
        exact ⟨List.mem_cons_of_mem _ hmem, fun z hz => hpre z (List.mem_append_left _ hz)⟩

theorem nodup_dedupAux : ∀ (s pre : List ListRow),
    ((dedupKeepFirstAux pre s).map (fun r => r.uuid)).Nodup := by
  intro s
  induction s with
  | nil => intro pre; simp [dedupKeepFirstAux]
  | cons v rest ih =>
    intro pre
    by_cases h : (pre.any fun z => z.uuid == v.uuid) = true
    · simp only [dedupKeepFirstAux, if_pos h]; exact ih (pre ++ [v])
    · simp only [dedupKeepFirstAux, if_neg h, List.map_cons]
      refine List.Nodup.cons (fun hmem => ?_) (ih (pre ++ [v]))
      obtain ⟨x, hx, hxu⟩ := List.mem_map.mp hmem
      obtain ⟨-, hpre⟩ := mem_of_mem_dedupAux rest (pre ++ [v]) x hx
      exact hpre v (List.mem_append_right _ (List.mem_singleton.mpr rfl)) hxu.symm

theorem max_of_mem_dedupAux : ∀ (s pre : List ListRow) (x : ListRow),
    List.Sorted descLe s → x ∈ dedupKeepFirstAux pre s →
    ∀ y ∈ s, y.uuid = x.uuid → y.utc_datetime.toList ≤ x.utc_datetime.toList := by
  intro s
  induction s with
  | nil => intro pre x _ hx; simp [dedupKeepFirstAux] at hx
  | cons v rest ih =>
    intro pre x hs hx y hy huuid
    obtain ⟨hhead, htail⟩ := List.sorted_cons.mp hs
    by_cases h : (pre.any fun z => z.uuid == v.uuid) = true
    · simp only [dedupKeepFirstAux, if_pos h] at hx
      obtain ⟨-, hpre⟩ := mem_of_mem_dedupAux rest (pre ++ [v]) x hx
      have hvx : v.uuid ≠ x.uuid :=
        hpre v (List.mem_append_right _ (List.mem_singleton.mpr rfl))
      rcases List.mem_cons.mp hy with rfl | hy'
      · exact absurd huuid hvx
      · exact ih (pre ++ [v]) x htail hx y hy' huuid
    · simp only [dedupKeepFirstAux, if_neg h] at hx
      rcases List.mem_cons.mp hx with rfl | hx'
      · rcases List.mem_cons.mp hy with rfl | hy'
        · exact le_refl _
        · exact hhead y hy'
      · obtain ⟨-, hpre⟩ := mem_of_mem_dedupAux rest (pre ++ [v]) x hx'
        have hvx : v.uuid ≠ x.uuid :=
          hpre v (List.mem_append_right _ (List.mem_singleton.mpr rfl))
        rcases List.mem_cons.mp hy with rfl | hy'
        · exact absurd huuid hvx
        · exact ih (pre ++ [v]) x htail hx' y hy' huuid

theorem cover_dedupAux : ∀ (s pre : List ListRow) (y : ListRow),
    y ∈ s → (∀ z ∈ pre, z.uuid ≠ y.uuid) →
    ∃ x ∈ dedupKeepFirstAux pre s, x.uuid = y.uuid := by
  intro s
  induction s with
  | nil => intro pre y hy; simp at hy
  | cons v rest ih =>
    intro pre y hy hpre
    by_cases h : (pre.any fun z => z.uuid == v.uuid) = true
    · simp only [dedupKeepFirstAux, if_pos h]
      rcases List.mem_cons.mp hy with rfl | hy'
      · obtain ⟨z, hz, hzu⟩ := List.any_eq_true.mp h
        exact absurd (beq_iff_eq.mp hzu) (hpre z hz)
      · refine ih (pre ++ [v]) y hy' fun z hz => ?_
        rcases List.mem_append.mp hz with hz' | hz'
        · exact hpre z hz'
        · obtain ⟨z', hz'', hzu⟩ := List.any_eq_true.mp h
          rw [List.mem_singleton.mp hz']
          intro hvy
          exact hpre z' hz'' ((beq_iff_eq.mp hzu).trans hvy)
    · simp only [dedupKeepFirstAux, if_neg h]
      rcases List.mem_cons.mp hy with rfl | hy'
      · exact ⟨y, List.mem_cons_self _ _, rfl⟩
      · by_cases hvy : v.uuid = y.uuid
        · exact ⟨v, List.mem_cons_self _ _, hvy⟩
        · obtain ⟨x, hx, hxu⟩ := ih (pre ++ [v]) y hy' (fun z hz => by
            rcases List.mem_append.mp hz with hz' | hz'
            · exact hpre z hz'
            · rw [List.mem_singleton.mp hz']; exact hvy)
          exact ⟨x, List.mem_cons_of_mem _ hx, hxu⟩

theorem sublist_dedupAux : ∀ (s pre : List ListRow),
    (dedupKeepFirstAux pre s).Sublist s := by
  intro s
  induction s with
  | nil => intro pre; simp [dedupKeepFirstAux]
  | cons v rest ih =>
    intro pre
    by_cases h : (pre.any fun z => z.uuid == v.uuid) = true
    · simp only [dedupKeepFirstAux, if_pos h]
      exact (ih (pre ++ [v])).cons v
    · simp only [dedupKeepFirstAux, if_neg h]
      exact (ih (pre ++ [v])).cons₂ v

theorem isPrefixCh_iff : ∀ (n h : List Char), isPrefixCh n h = true ↔ ∃ t, h = n ++ t := by
  intro n
  induction n with
  | nil => intro h; simp [isPrefixCh]
  | cons a as ih =>
    intro h
    cases h with
    | nil => simp [isPrefixCh]
    | cons b bs =>
      simp only [isPrefixCh, Bool.and_eq_true, beq_iff_eq, List.cons_append, List.cons.injEq]
      constructor
      · rintro ⟨rfl, hp⟩
        obtain ⟨t, rfl⟩ := (ih bs).mp hp
        exact ⟨t, rfl, rfl⟩
      · rintro ⟨t, rfl, rfl⟩
        exact ⟨rfl, (ih (as ++ t)).mpr ⟨t, rfl⟩⟩

theorem hasSub_iff : ∀ (h n : List Char), hasSub n h = true ↔ ∃ p q, h = p ++ n ++ q := by
  intro h
  induction h with
  | nil =>
    intro n
    simp only [hasSub, List.isEmpty_iff]
    constructor
    · rintro rfl; exact ⟨[], [], rfl⟩
    · rintro ⟨p, q, hpq⟩
      have h1 := List.append_eq_nil.mp hpq.symm
      have h2 := List.append_eq_nil.mp h1.1
      exact h2.2
  | cons c cs ih =>
    intro n
    simp only [hasSub, Bool.or_eq_true]
    constructor
    · rintro (hp | hrec)
      · obtain ⟨t, ht⟩ := (isPrefixCh_iff n (c :: cs)).mp hp
        exact ⟨[], t, by simpa using ht⟩
      · obtain ⟨p, q, rfl⟩ := (ih n).mp hrec
        exact ⟨c :: p, q, rfl⟩
    · rintro ⟨p, q, hpq⟩
      cases p with
      | nil =>
        exact Or.inl ((isPrefixCh_iff n (c :: cs)).mpr ⟨q, by simpa using hpq⟩)
      | cons p0 ps =>
        rcases List.cons.injEq .. ▸ hpq with h'
        have h2 : cs = ps ++ n ++ q := by
          simpa using congrArg List.tail hpq
        exact Or.inr ((ih n).mpr ⟨ps, q, h2⟩)

theorem rowMatches_iff (q : String) (r : ListRow) :
    rowMatches q r = true ↔
      r.content ≠ "" ∧
        ∀ t ∈ tokenize q, ∃ c ∈ tokenize r.content, ∃ p s, c = p ++ t ++ s := by
  by_cases hc : r.content = ""
  · simp [rowMatches, hc]
  · have hc' : (r.content == "") = false := beq_eq_false_iff_ne.mpr hc
    simp [rowMatches, hc', hc, List.all_eq_true, List.any_eq_true, hasSub_iff]

theorem clientValidate_cons (spec : ArgSpec) (ss : List ArgSpec) (v : String)
    (vs : List String) :
    clientValidate (spec :: ss) (v :: vs) =
      if validArg spec.kind v then clientValidate ss vs else some (errFor spec) := by
  cases hk : spec.kind with
  | BOOLEAN => simp [clientValidate, validArg, hk]
  | INTEGER =>
    by_cases h1 : (v == "" || isNaNJs (jsNumber v)) = true
    · simp [clientValidate, hk, h1, validArg, errFor]
    · by_cases h2 : isIntegerJs (jsNumber v) = true
      · simp [clientValidate, hk, h1, h2, validArg, errFor]
      · simp [clientValidate, hk, h1, h2, validArg, errFor]
  | FLOAT =>
    by_cases h1 : (v == "" || isNaNJs (jsNumber v)) = true <;>
      simp [clientValidate, hk, h1, validArg, errFor]
  | DATETIME =>
    by_cases h : (trimWS v.toList).isEmpty = true <;>
      simp [clientValidate, hk, h, validArg, errFor]
  | TEXT =>
    by_cases h : (trimWS v.toList).isEmpty = true <;>
      simp [clientValidate, hk, h, validArg, errFor]
  | TEXTAREA =>
    by_cases h : (trimWS v.toList).isEmpty = true <;>
      simp [clientValidate, hk, h, validArg, errFor]

theorem validArg_INTEGER_iff (v : String) :
    validArg .INTEGER v = true ↔
      v ≠ "" ∧ ∃ m k, jsNumber v = .num m k ∧ ((10 : Int) ^ k ∣ m) := by
  cases hn : jsNumber v with
  | nan => simp [validArg, hn, isNaNJs, isIntegerJs]
  | inf b => simp [validArg, hn, isNaNJs, isIntegerJs]
  | num m k =>
    simp only [validArg, hn, isNaNJs, isIntegerJs, Bool.or_false, Bool.and_eq_true,
      Bool.not_eq_true', beq_eq_false_iff_ne, ne_eq, decide_eq_true_eq]
    constructor
    · rintro ⟨hv, hmod⟩
      exact ⟨hv, m, k, rfl, Int.dvd_iff_emod_eq_zero.mpr hmod⟩
    · rintro ⟨hv, m', k', hmk, hdvd⟩
      obtain ⟨rfl, rfl⟩ : m = m' ∧ k = k' := by
        injection hmk with h1 h2; exact ⟨h1, h2⟩
      exact ⟨hv, Int.dvd_iff_emod_eq_zero.mp hdvd⟩

theorem validArg_FLOAT_iff (v : String) :
    validArg .FLOAT v = true ↔ v ≠ "" ∧ jsNumber v ≠ .nan := by
  cases hn : jsNumber v with
  | nan => simp [validArg, hn, isNaNJs]
  | inf b => simp [validArg, hn, isNaNJs]
  | num m k => simp [validArg, hn, isNaNJs]

theorem validArg_trim_iff (k : ArgKind) (v : String)
    (hk : k = .DATETIME ∨ k = .TEXT ∨ k = .TEXTAREA) :
    validArg k v = true ↔ trimWS v.toList ≠ [] := by
  rcases hk with rfl | rfl | rfl <;>
    simp [validArg, List.isEmpty_iff]

/-! ### Claim theorems -/

/-- C1 (counterexample): the claim says dedup precedes sorting and keeps the
first-in-input row per uuid, so on
`[{uuid A, 2024-01-01}, {uuid B, 2024-06-01}, {uuid A, 2025-01-01}]` it
predicts the 2024 `A` row is kept and the 2025 `A` row dropped.  The code
(`ListPage.tsx` `sorted` memo) sorts descending first and then dedups, so it
keeps the 2025 `A` row and drops the 2024 one. -/
theorem dn_C1_counterexample :
    sortedDedup [exA1, exB2, exA3] = [exA3, exB2] ∧ exA1 ∉ sortedDedup [exA1, exB2, exA3] := by
  exact ⟨by decide, by decide⟩

/-- C1 (amended): deduplication by uuid is applied to the occurrence rows
*after* sorting descending by `utc_datetime`; for each uuid the kept row is
the one at the first index of the sorted order, hence one with maximal
`utc_datetime` — the output is a stable filter of the sorted sequence with
pairwise-distinct uuids covering every input uuid. -/
theorem dn_C1 (rows : List ListRow) :
    (sortedDedup rows).Sublist (sortDesc rows) ∧
    ((sortedDedup rows).map (fun r => r.uuid)).Nodup ∧
    ∀ y ∈ rows, ∃ x ∈ sortedDedup rows,
      x.uuid = y.uuid ∧ y.utc_datetime.toList ≤ x.utc_datetime.toList := by
  refine ⟨sublist_dedupAux _ [], nodup_dedupAux _ [], fun y hy => ?_⟩
  have hy' : y ∈ sortDesc rows := (sortDesc_perm rows).mem_iff.mpr hy
  obtain ⟨x, hx, hxu⟩ := cover_dedupAux (sortDesc rows) [] y hy' (by simp)
  exact ⟨x, hx, hxu,
    max_of_mem_dedupAux (sortDesc rows) [] x (sortDesc_sorted rows) hx y hy' hxu.symm⟩

/-- C1 witness: instantiating the amended claim on the three-row example. -/
theorem dn_C1_witness :
    ∃ x ∈ sortedDedup [exA1, exB2, exA3],
      x.uuid = exA1.uuid ∧ exA1.utc_datetime.toList ≤ x.utc_datetime.toList :=
  (dn_C1 [exA1, exB2, exA3]).2.2 exA1 (by decide)

/-- C2 (confirmed): with a blank query the content filter retains all rows
unchanged; with a non-blank query a row is retained iff its content is
non-empty and every query token is a substring of at least one content token
(tokens per the shared tokenizer); a row with empty content never matches;
`"run fast"` matches `"I will run faster"`, `"zzz"` does not. -/
theorem dn_C2 (rows : List ListRow) (q : String) :
    (trimWS q.toList = [] → listDisplay rows q = sortedDedup rows) ∧
    (trimWS q.toList ≠ [] → ∀ r : ListRow,
      r ∈ listDisplay rows q ↔
        r ∈ sortedDedup rows ∧ r.content ≠ "" ∧
          ∀ t ∈ tokenize q, ∃ c ∈ tokenize r.content, ∃ p s, c = p ++ t ++ s) ∧
    (∀ r : ListRow, r.content = "" → rowMatches q r = false) ∧
    rowMatches "run fast" ⟨"x", "u", "I will run faster", "d"⟩ = true ∧
    rowMatches "zzz" ⟨"x", "u", "I will run faster", "d"⟩ = false := by
  refine ⟨fun hq => ?_, fun hq r => ?_, fun r hr => ?_, by decide, by decide⟩
  · have hqd : trimWS q.data = [] := hq
    simp [listDisplay, hqd]
  · have hqd : trimWS q.data ≠ [] := hq
    simp [listDisplay, hqd, List.mem_filter, rowMatches_iff]
  · simp [rowMatches, hr]

/-- C2 witness: instantiating the retention characterization at the
`"run fast"` query and a concrete row. -/
theorem dn_C2_witness :
    exRun ∈ listDisplay [exRun] "run fast" ↔
      exRun ∈ sortedDedup [exRun] ∧ exRun.content ≠ "" ∧
        ∀ t ∈ tokenize "run fast", ∃ c ∈ tokenize exRun.content, ∃ p s, c = p ++ t ++ s :=
  (dn_C2 [exRun] "run fast").2.1 (by decide) exRun

/-- C3 (confirmed): an INTEGER raw value is accepted iff it is non-empty and
`Number(v)` is a finite value with zero fractional part (`10^k ∣ m` for the
exact value `m / 10^k`); `"3"` and `"-7"` are accepted, `"3.5"`, `""` and
`"abc"` rejected. -/
theorem dn_C3 (v : String) :
    (validArg .INTEGER v = true ↔
      v ≠ "" ∧ ∃ m k, jsNumber v = .num m k ∧ ((10 : Int) ^ k ∣ m)) ∧
    validArg .INTEGER "3" = true ∧ validArg .INTEGER "-7" = true ∧
    validArg .INTEGER "3.5" = false ∧ validArg .INTEGER "" = false ∧
    validArg .INTEGER "abc" = false :=
  ⟨validArg_INTEGER_iff v, by decide, by decide, by decide, by decide, by decide⟩

/-- C3 witness: the characterization instantiated at `"3"`. -/
theorem dn_C3_witness : validArg .INTEGER "3" = true :=
  (dn_C3 "3").2.1

/-- C4 (counterexample): the claim says any FLOAT raw value not denoting a
finite real — e.g. one converting to an infinite value — is rejected, but the
validator only rules out `""` and `NaN`, so `"Infinity"` (which converts to
the infinite value) is accepted. -/
theorem dn_C4_counterexample :
    validArg .FLOAT "Infinity" = true ∧ jsNumber "Infinity" = .inf false := by
  exact ⟨by decide, by decide⟩

/-- C4 (amended): a FLOAT raw value is accepted iff it is non-empty and
`Number(v)` is not `NaN`; finiteness is not checked, so values converting to
±Infinity are accepted; `"3.5"` and `"-2"` are accepted, `""` and `"abc"`
rejected. -/
theorem dn_C4 (v : String) :
    (validArg .FLOAT v = true ↔ v ≠ "" ∧ jsNumber v ≠ .nan) ∧
    validArg .FLOAT "3.5" = true ∧ validArg .FLOAT "-2" = true ∧
    validArg .FLOAT "" = false ∧ validArg .FLOAT "abc" = false ∧
    validArg .FLOAT "Infinity" = true :=
  ⟨validArg_FLOAT_iff v, by decide, by decide, by decide, by decide, by decide⟩

/-- C4 witness: the amended characterization instantiated at `"3.5"`. -/
theorem dn_C4_witness : validArg .FLOAT "3.5" = true :=
  (dn_C4 "3.5").2.1

/-- C5 (confirmed): validation walks the schema in order and stops at the
first invalid position: when every position before `spec` validates and
`spec`'s value does not, `clientValidate` returns exactly `spec`'s
label-qualified message (no aggregation), and `onCreate` surfaces it as a
validation error without building the network request. -/
theorem dn_C5 (tz : String → String) (typeId : String)
    (s1 : List ArgSpec) (spec : ArgSpec) (s2 : List ArgSpec)
    (v1 : List String) (v : String) (v2 : List String)
    (hlen : s1.length = v1.length)
    (hvalid : ∀ p ∈ s1.zip v1, validArg p.1.kind p.2 = true)
    (hbad : validArg spec.kind v = false) :
    clientValidate (s1 ++ spec :: s2) (v1 ++ v :: v2) = some (errFor spec) ∧
    onCreate tz typeId (s1 ++ spec :: s2) (v1 ++ v :: v2) =
      .validationError (errFor spec) ∧
    ∃ t, errFor spec = spec.label ++ t := by
  have key : clientValidate (s1 ++ spec :: s2) (v1 ++ v :: v2) = some (errFor spec) := by
    induction s1 generalizing v1 with
    | nil =>
      cases v1 with
      | nil => simp [clientValidate_cons, hbad]
      | cons _ _ => simp at hlen
    | cons a s1' ih =>
      cases v1 with
      | nil => simp at hlen
      | cons b v1' =>
        have hab : validArg a.kind b = true := hvalid (a, b) (by simp)
        simp only [List.cons_append, clientValidate_cons, hab, if_true]
        exact ih v1' (by simpa using hlen) fun p hp => hvalid p (by simp [hp])
  refine ⟨key, by simp [onCreate, key], ?_⟩
  cases hk : spec.kind with
  | DATETIME => exact ⟨" is required.", by simp [errFor, hk]⟩
  | TEXT => exact ⟨" is required.", by simp [errFor, hk]⟩
  | TEXTAREA => exact ⟨" is required.", by simp [errFor, hk]⟩
  | INTEGER => exact ⟨" must be an integer.", by simp [errFor, hk]⟩
  | FLOAT => exact ⟨" must be a number.", by simp [errFor, hk]⟩
  | BOOLEAN => exact ⟨" is required.", by simp [errFor, hk]⟩

/-- C5 witness: a three-position schema whose middle INTEGER position fails
on `"3.5"` while the first position validates. -/
theorem dn_C5_witness :
    clientValidate [⟨.TEXT, "Name", ""⟩, ⟨.INTEGER, "Count", ""⟩, ⟨.FLOAT, "Level", ""⟩]
        ["ok", "3.5", "1"] = some (errFor ⟨.INTEGER, "Count", ""⟩) ∧
    onCreate id "t" [⟨.TEXT, "Name", ""⟩, ⟨.INTEGER, "Count", ""⟩, ⟨.FLOAT, "Level", ""⟩]
        ["ok", "3.5", "1"] = .validationError (errFor ⟨.INTEGER, "Count", ""⟩) ∧
    ∃ t, errFor ⟨.INTEGER, "Count", ""⟩ = "Count" ++ t :=
  dn_C5 id "t" [⟨.TEXT, "Name", ""⟩] ⟨.INTEGER, "Count", ""⟩ [⟨.FLOAT, "Level", ""⟩]
    ["ok"] "3.5" ["1"] (by decide) (by decide) (by decide)

/-- C6 (confirmed): status classification is `passed` exactly when the
instant is less than or equal to `now` and `upcoming` exactly when it is
strictly greater; the boundary instant equal to `now` is `passed`. -/
theorem dn_C6 (t now : Int) :
    (classifyStatus t now = .passed ↔ t ≤ now) ∧
    (classifyStatus t now = .upcoming ↔ now < t) ∧
    (t = now → classifyStatus t now = .passed) := by
  rcases le_or_lt t now with h | h
  · simp [classifyStatus, isPast, h, not_lt.mpr h]
  · simp [classifyStatus, isPast, not_le.mpr h, h]
    omega

/-- C6 witness: the boundary case at a concrete instant. -/
theorem dn_C6_witness : classifyStatus 1700000000000 1700000000000 = .passed :=
  (dn_C6 1700000000000 1700000000000).2.2 rfl

/-- C7 (confirmed): a TEXT or TEXTAREA raw value is accepted iff its trimmed
form is non-empty, and coercion sends the original untrimmed string to the
canonical value unchanged. -/
theorem dn_C7 (tz : String → String) (v : String) :
    (validArg .TEXT v = true ↔ trimWS v.toList ≠ []) ∧
    (validArg .TEXTAREA v = true ↔ trimWS v.toList ≠ []) ∧
    coerceArg tz .TEXT v = .str v ∧ coerceArg tz .TEXTAREA v = .str v :=
  ⟨validArg_trim_iff _ v (Or.inr (Or.inl rfl)),
   validArg_trim_iff _ v (Or.inr (Or.inr rfl)), rfl, rfl⟩

/-- C7 witness: an untrimmed TEXT value passes through coercion unchanged. -/
theorem dn_C7_witness : coerceArg id .TEXT "  hi " = .str "  hi " :=
  (dn_C7 id "  hi ").2.2.1

/-- C8 (counterexample): the claim says a DATETIME raw value is accepted iff
it is a non-empty string, in particular a whitespace-only string; but the
validator trims first, so the non-empty string `" "` is rejected. -/
theorem dn_C8_counterexample :
    validArg .DATETIME " " = false ∧ (" " : String) ≠ "" := by
  exact ⟨by decide, by decide⟩

/-- C8 (amended): a DATETIME raw value is accepted iff its trimmed form is
non-empty (same rule as TEXT); whitespace-only strings are rejected, and no
syntactic constraint beyond that is enforced client-side. -/
theorem dn_C8 (v : String) :
    (validArg .DATETIME v = true ↔ trimWS v.toList ≠ []) ∧
    validArg .DATETIME " " = false ∧ validArg .DATETIME "2026-01-12T16:30" = true :=
  ⟨validArg_trim_iff _ v (Or.inl rfl), by decide, by decide⟩

/-- C8 witness: the amended characterization instantiated at a picker-shaped
value. -/
theorem dn_C8_witness : validArg .DATETIME "2026-01-12T16:30" = true :=
  (dn_C8 "x").2.2

/-- C9 (confirmed): the deduped listing contains at most one row per uuid,
every output row comes from the input, and the kept row's `utc_datetime` is
lexicographically maximal among all input rows sharing its uuid. -/
theorem dn_C9 (rows : List ListRow) :
    ((sortedDedup rows).map (fun r => r.uuid)).Nodup ∧
    ∀ x ∈ sortedDedup rows, x ∈ rows ∧
      ∀ y ∈ rows, y.uuid = x.uuid → y.utc_datetime.toList ≤ x.utc_datetime.toList := by
  refine ⟨nodup_dedupAux _ [], fun x hx => ?_⟩
  have hxs : x ∈ sortDesc rows := (sublist_dedupAux (sortDesc rows) []).subset hx
  refine ⟨(sortDesc_perm rows).mem_iff.mp hxs, fun y hy hyu => ?_⟩
  exact max_of_mem_dedupAux (sortDesc rows) [] x (sortDesc_sorted rows) hx y
    ((sortDesc_perm rows).mem_iff.mpr hy) hyu

/-- C9 witness: on the three-row example the kept `A` row dominates the
dropped one. -/
theorem dn_C9_witness :
    exA1.utc_datetime.toList ≤ exA3.utc_datetime.toList :=
  ((dn_C9 [exA1, exB2, exA3]).2 exA3 (by decide)).2 exA1 (by decide) (by decide)

/-- C10 (confirmed): the inspection view sorts a notification's occurrence
rows ascending by `utc_datetime` (earliest first, the opposite direction of
the list view) and the sort is a permutation — no row is dropped or added. -/
theorem dn_C10 (rows : List ListRow) :
    List.Sorted ascLe (infoRows rows) ∧ (infoRows rows).Perm rows :=
  ⟨List.sorted_insertionSort ascLe rows, List.perm_insertionSort ascLe rows⟩

/-- C10 witness: instantiating the inspection-view sort on a concrete pair of
rows. -/
theorem dn_C10_witness :
    List.Sorted ascLe (infoRows [exA3, exA1]) ∧ (infoRows [exA3, exA1]).Perm [exA3, exA1] :=
  dn_C10 [exA3, exA1]

end Dn
